import Mathlib

/-!
Shallow embedding of the tinychat registry (src/main.go).

Go maps are modelled as association lists without duplicate keys:
`mlookup` is `m[k]`, `mapInsert` is `m[k] = v` (replacing an existing
binding in place), `mapErase` is `delete(m, k)`.  Go map iteration order
is unspecified; the model fixes the list order, and every theorem about
fan-out is stated order-independently (via counts and membership).

A `Client` struct is identified by a numeric id; the mutable `nick`
field of each client lives in the `nicks` map of the server state
(`cl.nick = x` becomes an update of `nicks` at the client's id).
`cl.Nick()` is `nickOf`.  `Conn.Write` calls are modelled as an output
list of (recipient client id, line written) pairs.  Timestamps
(`time.Now().Format(time.RFC3339)`) are passed in as the `now` argument.
-/

namespace TinyChat

/-- Lookup in an association list: Go `m[k]` (first binding wins). -/
def mlookup {κ ν : Type} [DecidableEq κ] (k : κ) : List (κ × ν) → Option ν
  | [] => none
  | p :: rest => if p.1 = k then some p.2 else mlookup k rest

/-- Insert into an association list: Go `m[k] = v`.  Replaces an existing
binding in place, otherwise appends. -/
def mapInsert {κ ν : Type} [DecidableEq κ] (k : κ) (v : ν) : List (κ × ν) → List (κ × ν)
  | [] => [(k, v)]
  | p :: rest => if p.1 = k then (k, v) :: rest else p :: mapInsert k v rest

/-- Delete from an association list: Go `delete(m, k)`. -/
def mapErase {κ ν : Type} [DecidableEq κ] (k : κ) : List (κ × ν) → List (κ × ν)
  | [] => []
  | p :: rest => if p.1 = k then rest else p :: mapErase k rest

/-- The keys of an association list. -/
def keysOf {κ ν : Type} (l : List (κ × ν)) : List κ := l.map Prod.fst

/-- An association list with no duplicate keys (every Go map satisfies this). -/
def NodupKeys {κ ν : Type} (l : List (κ × ν)) : Prop := (keysOf l).Nodup

/-- Errors produced by the registry, mirroring the `errors.New` calls in
src/main.go. -/
inductive ChatError where
  | nameTaken (tn : String)
  | unknownClient (tn : String)
  | noRoom (nick : String)
  | clientAlreadyExists
deriving DecidableEq, Repr

/-- The `err.Error()` string of each error, as formatted in src/main.go. -/
def errText : ChatError → String
  | .nameTaken t => "user [" ++ t ++ "] already exists\r\n"
  | .unknownClient t => "user [" ++ t ++ "] does not exists\r\n"
  | .noRoom n => n ++ " does not have a room"
  | .clientAlreadyExists => "Client already exists"

/-- The server state: `nicks` holds every Client struct's `nick` field
(keyed by client id), `clients` is `Server.Clients` (the flat index),
`rooms` is `Server.Rooms` with each room's `Clients` member map inlined. -/
structure ServerState where
  nicks : List (Nat × String)
  clients : List (String × Nat)
  rooms : List (String × List (String × Nat))
deriving DecidableEq, Repr

/-- `cl.Nick()`: the client's current nick field. -/
def nickOf (s : ServerState) (c : Nat) : String := (mlookup c s.nicks).getD ""

/-- `Server.clientExists`. -/
def clientExists (s : ServerState) (n : String) : Bool := (mlookup n s.clients).isSome

/-- `Server.roomExists`. -/
def roomExists (s : ServerState) (rn : String) : Bool := (mlookup rn s.rooms).isSome

/-- The member map of a room (empty when the room does not exist). -/
def roomMembers (s : ServerState) (rn : String) : List (String × Nat) :=
  (mlookup rn s.rooms).getD []

/-- The loop body of `Server.findRoom`: scan the rooms for one whose member
map contains the nick as a key, returning the room's name. -/
def findRoomAux (n : String) : List (String × List (String × Nat)) → Option String
  | [] => none
  | p :: rest => if (mlookup n p.2).isSome then some p.1 else findRoomAux n rest

/-- `Server.findRoom`: the first room containing the client's current nick,
`none` standing for the "%s does not have a room" error. -/
def findRoom (s : ServerState) (c : Nat) : Option String :=
  findRoomAux (nickOf s c) s.rooms

/-- `Server.CloseClient`: closes the connection (not modelled) and deletes
the client's nick from the flat index.  The room member maps are untouched. -/
def CloseClient (s : ServerState) (c : Nat) : ServerState :=
  { s with clients := mapErase (nickOf s c) s.clients }

/-- `Server.ChangeNick`.  Every error path returns before any mutation. -/
def ChangeNick (s : ServerState) (frm tn : String) : ServerState × Option ChatError :=
  if clientExists s tn then (s, some (.nameTaken tn))
  else
    match mlookup frm s.clients with
    | some cl =>
      match findRoom s cl with
      | none => (s, some (.noRoom (nickOf s cl)))
      | some rn =>
        let mem := roomMembers s rn
        ({ nicks := mapInsert cl tn s.nicks,
           clients := mapInsert tn cl (mapErase frm s.clients),
           rooms := mapInsert rn (mapInsert tn cl (mapErase frm mem)) s.rooms }, none)
    | none => (s, some (.unknownClient tn))

/-- The message string built by `Message`/`Blast` before the trailing
"\r\n": the timestamp/nick tag followed by " w" for each word. -/
def fmtMsg (now nick : String) (words : List String) : String :=
  words.foldl (fun m w => m ++ " " ++ w) ("[" ++ now ++ ":" ++ nick ++ "]")

/-- ASCII whitespace, as recognized by `strings.TrimSpace` (the Unicode
space classes are irrelevant here: every character these programs feed in
is ASCII, and `Message` and `Blast` share this same trimming). -/
def isSpaceChar (ch : Char) : Bool :=
  ch = ' ' || ch = '\t' || ch = '\n' || ch = '\r' || ch = '\x0b' || ch = '\x0c'

/-- `strings.TrimSpace`: drop whitespace from both ends. -/
def trimSpace (str : String) : String :=
  String.mk (((str.data.dropWhile isSpaceChar).reverse.dropWhile isSpaceChar).reverse)

/-- The line actually written into each recipient:
`strings.TrimSpace(msg) + "\r\n"` where `msg` is `fmtMsg ... ++ "\r\n"`. -/
def outLine (now nick : String) (words : List String) : String :=
  trimSpace (fmtMsg now nick words ++ "\r\n") ++ "\r\n"

/-- `Server.Message`: resolve the sender's room, then write the formatted
line for every member of that room.  No state is mutated. -/
def Message (s : ServerState) (now : String) (inputs : List String) (c : Nat) :
    ServerState × Option ChatError × List (Nat × String) :=
  match findRoom s c with
  | none => (s, some (.noRoom (nickOf s c)), [])
  | some rn =>
    (s, none, (roomMembers s rn).map (fun q => (q.2, outLine now (nickOf s c) inputs)))

/-- `Server.Blast`: write the line formatted from `inputs[1:]` for every
client in the flat index.  No state is mutated. -/
def Blast (s : ServerState) (now : String) (inputs : List String) (c : Nat) :
    ServerState × List (Nat × String) :=
  (s, s.clients.map (fun q => (q.2, outLine now (nickOf s c) (inputs.drop 1))))

/-- `Server.addClient`: insert into the flat index unless the nick is taken. -/
def addClient (s : ServerState) (c : Nat) : ServerState × Option ChatError :=
  if clientExists s (nickOf s c) then (s, some .clientAlreadyExists)
  else ({ s with clients := mapInsert (nickOf s c) c s.clients }, none)

/-- `Server.createRoom`. -/
def createRoom (s : ServerState) (rn : String) : ServerState :=
  { s with rooms := mapInsert rn [] s.rooms }

/-- `Server.joinRoom`: create the room if needed, insert the client into its
member map, then `addClient`.  On `addClient` failure the room insertion has
already happened and persists. -/
def joinRoom (s : ServerState) (rn : String) (c : Nat) : ServerState × Option ChatError :=
  let s1 := if roomExists s rn then s else createRoom s rn
  let s2 := { s1 with
              rooms := mapInsert rn (mapInsert (nickOf s1 c) c (roomMembers s1 rn)) s1.rooms }
  addClient s2 c

/-- `Server.tryDeleteFromRoom`: delete the client's nick from the first room
containing it, if any. -/
def tryDeleteFromRoom (s : ServerState) (c : Nat) : ServerState :=
  match findRoom s c with
  | none => s
  | some rn =>
    { s with rooms := mapInsert rn (mapErase (nickOf s c) (roomMembers s rn)) s.rooms }

/-- `Server.JoinRoom`: remove the client from its current room, then join. -/
def JoinRoom (s : ServerState) (rn : String) (c : Nat) : ServerState × Option ChatError :=
  joinRoom (tryDeleteFromRoom s c) rn c

/-- The welcome/help banner of src/main.go, with the nick substituted for
the `%s` verb. -/
def banner (nick : String) : String :=
  "\n--|Welcome|--------------------------------------------------------------------------------------\n\nYou are user [" ++ nick ++ "], Welcome to TinyChat. \n\n--|Help|-----------------------------------------------------------------------------------------\n\n\x7bno flag needed\x7d\nsend a message to the room you are in\n(example: hi freeze, i\x27m batman)\n\n/help\nprints this banner\n(example: /help) \n\n/quit\nquits the application\n(example: /quit) \n\n/nick\nsets your nickname\n(example: /nick batman)\n\n/room \nchange chat room, only 1 room may be joined\n(example: /room gotham)\n\n/blast\nblast a message to all connected clients \n(example: /blast the ice man cometh)\n\n-------------------------------------------------------------------------------------------------\n"

/-- `strings.ToLower`, applied character-wise (the inputs of interest are
ASCII; Go's full Unicode case mapping agrees with `Char.toLower` there). -/
def toLowerStr (str : String) : String := String.mk (str.data.map Char.toLower)

/-- One iteration of `clientRun` after the input line has been split into
whitespace-delimited tokens (`strings.Fields`).  Returns the new state, the
direct replies written by `clientRun` itself via `cl.Write`, and the fan-out
writes performed inside `Message`/`Blast`. -/
def handleLine (s : ServerState) (now : String) (c : Nat) (tokens : List String) :
    ServerState × List (Nat × String) × List (Nat × String) :=
  match tokens with
  | [] => (s, [(c, "Command not recognized\r\n")], [])
  | cmd :: rest =>
    if cmd = "/help" then (s, [(c, banner (nickOf s c))], [])
    else if cmd = "/quit" then (CloseClient s c, [], [])
    else if cmd = "/blast" then
      let (s1, outs) := Blast s now tokens c
      (s1, [], outs)
    else if cmd = "/room" then
      match rest with
      | [] => (s, [(c, "Unable to join room\r\n")], [])
      | _ :: _ =>
        let roomname := toLowerStr (String.join rest)
        let (s1, _) := JoinRoom s roomname c
        (s1, [(c, "Joining room " ++ roomname ++ "\r\n")], [])
    else if cmd = "/nick" then
      match rest with
      | [] => (s, [(c, "Nick unchanged and is currently [" ++ nickOf s c ++ "] \r\n")], [])
      | tn :: _ =>
        let frm := nickOf s c
        let (s1, err) := ChangeNick s frm tn
        match err with
        | some e => (s1, [(c, errText e)], [])
        | none => (s1, [(c, "Nick changed from [" ++ frm ++ "] to [" ++ tn ++ "]\r\n")], [])
    else
      let (s1, _, outs) := Message s now tokens c
      (s1, [], outs)

/-- A client is present in some room's member map under nick `n` exactly
when the flat index maps `n` onto it (the spec's two-way invariant), and no
client occurs in two distinct rooms. -/
def RoomSide (s : ServerState) : Prop :=
  ∀ p ∈ s.rooms, ∀ q ∈ p.2, mlookup q.1 s.clients = some q.2

/-- Every flat-index entry has a room holding the same client under the same
nick. -/
def IndexSide (s : ServerState) : Prop :=
  ∀ q ∈ s.clients, ∃ p ∈ s.rooms, mlookup q.1 p.2 = some q.2

/-- No client occurs in two distinct rooms. -/
def AtMostOneRoom (s : ServerState) : Prop :=
  ∀ p₁ ∈ s.rooms, ∀ p₂ ∈ s.rooms, ∀ q₁ ∈ p₁.2, ∀ q₂ ∈ p₂.2, q₁.2 = q₂.2 → p₁ = p₂

/-- The registry invariant stated by the spec: room membership under a nick
iff flat-index membership under that nick, and at most one room per client. -/
def InvariantHolds (s : ServerState) : Prop :=
  RoomSide s ∧ IndexSide s ∧ AtMostOneRoom s

/-- All four kinds of maps in the state have no duplicate keys (true of
every Go map). -/
def StateNodup (s : ServerState) : Prop :=
  NodupKeys s.nicks ∧ NodupKeys s.clients ∧ NodupKeys s.rooms ∧ ∀ p ∈ s.rooms, NodupKeys p.2

/-- Every flat-index entry's client has that nick as its `nick` field. -/
def NickConsistent (s : ServerState) : Prop :=
  ∀ q ∈ s.clients, nickOf s q.2 = q.1

/-- A well-formed registry state: Go-map key uniqueness, index keys agreeing
with the clients' nick fields, and the spec invariant. -/
def WellFormed (s : ServerState) : Prop :=
  StateNodup s ∧ NickConsistent s ∧ InvariantHolds s

/-- A small concrete well-formed registry: client 0 (nick "a") seated in
room "r", client 1 (nick "b") seated in room "g". -/
def sampleState : ServerState :=
  { nicks := [(0, "a"), (1, "b")],
    clients := [("a", 0), ("b", 1)],
    rooms := [("r", [("a", 0)]), ("g", [("b", 1)])] }

/-- A registry whose only client holds nick "a" in the flat index but sits
in no room (reachable, e.g. after a colliding join removed its room entry). -/
def unseatedState : ServerState :=
  { nicks := [(0, "a")], clients := [("a", 0)], rooms := [("r", [])] }

instance : DecidablePred (NodupKeys : List (String × Nat) → Prop) := fun l =>
  List.nodupDecidable (keysOf l)

instance (s : ServerState) : Decidable (InvariantHolds s) := by
  unfold InvariantHolds RoomSide IndexSide AtMostOneRoom; infer_instance

instance (s : ServerState) : Decidable (WellFormed s) := by
  unfold WellFormed StateNodup NickConsistent InvariantHolds RoomSide IndexSide AtMostOneRoom
    NodupKeys
  infer_instance

section MapLemmas

variable {κ ν : Type} [DecidableEq κ]

theorem mlookup_mapInsert_self (k : κ) (v : ν) (l : List (κ × ν)) :
    mlookup k (mapInsert k v l) = some v := by
  induction l with
  | nil => simp [mapInsert, mlookup]
  | cons p rest ih =>
    by_cases h : p.1 = k
    · simp [mapInsert, h, mlookup]
    · simp [mapInsert, h, mlookup, ih]

theorem mlookup_mapInsert_ne {k' k : κ} (h : k' ≠ k) (v : ν) (l : List (κ × ν)) :
    mlookup k (mapInsert k' v l) = mlookup k l := by
  induction l with
  | nil => simp [mapInsert, mlookup, h]
  | cons p rest ih =>
    by_cases hp : p.1 = k'
    · simp [mapInsert, hp, mlookup, h]
    · simp only [mapInsert, hp, if_false, mlookup]
      by_cases hk : p.1 = k
      · simp [hk]
      · simp [hk, ih]

theorem mlookup_mapErase_ne {k' k : κ} (h : k' ≠ k) (l : List (κ × ν)) :
    mlookup k (mapErase k' l) = mlookup k l := by
  induction l with
  | nil => simp [mapErase]
  | cons p rest ih =>
    by_cases hp : p.1 = k'
    · have hk : p.1 ≠ k := by rw [hp]; exact h
      simp [mapErase, hp, mlookup, hk, h]
    · simp only [mapErase, hp, if_false, mlookup]
      by_cases hk : p.1 = k
      · simp [hk]
      · simp [hk, ih]

theorem mem_keysOf_of_mlookup_isSome {k : κ} {l : List (κ × ν)}
    (h : (mlookup k l).isSome) : k ∈ keysOf l := by
  induction l with
  | nil => simp [mlookup] at h
  | cons p rest ih =>
    by_cases hp : p.1 = k
    · simp [keysOf, hp]
    · simp only [mlookup, hp, if_false] at h
      simpa [keysOf] using Or.inr (by simpa [keysOf] using ih h)

theorem mlookup_eq_none_of_not_mem_keys {k : κ} {l : List (κ × ν)}
    (h : k ∉ keysOf l) : mlookup k l = none := by
  induction l with
  | nil => simp [mlookup]
  | cons p rest ih =>
    simp only [keysOf, List.map_cons, List.mem_cons, not_or] at h
    have hp : p.1 ≠ k := fun hh => h.1 hh.symm
    simp only [mlookup, hp, if_false]
    exact ih (by simpa [keysOf] using h.2)

theorem mlookup_mapErase_self {k : κ} {l : List (κ × ν)} (h : NodupKeys l) :
    mlookup k (mapErase k l) = none := by
  induction l with
  | nil => simp [mapErase, mlookup]
  | cons p rest ih =>
    simp only [NodupKeys, keysOf, List.map_cons, List.nodup_cons] at h
    by_cases hp : p.1 = k
    · simp only [mapErase, hp, if_true]
      subst hp
      exact mlookup_eq_none_of_not_mem_keys h.1
    · simp only [mapErase, hp, if_false, mlookup]
      exact ih h.2

theorem mem_keysOf_mapInsert {a k : κ} {v : ν} {l : List (κ × ν)}
    (h : a ∈ keysOf (mapInsert k v l)) : a = k ∨ a ∈ keysOf l := by
  induction l with
  | nil => simpa [mapInsert, keysOf] using h
  | cons p rest ih =>
    by_cases hp : p.1 = k
    · simp only [mapInsert, hp, if_true, keysOf, List.map_cons, List.mem_cons] at h
      rcases h with h | h
      · exact Or.inl h
      · exact Or.inr (by simp [keysOf, h])
    · simp only [mapInsert, hp, if_false, keysOf, List.map_cons, List.mem_cons] at h
      rcases h with h | h
      · exact Or.inr (by simp [keysOf, h])
      · rcases ih (by simpa [keysOf] using h) with h' | h'
        · exact Or.inl h'
        · exact Or.inr (by simp [keysOf]; right; simpa [keysOf] using h')

theorem mem_keysOf_mapErase {a k : κ} {l : List (κ × ν)}
    (h : a ∈ keysOf (mapErase k l)) : a ∈ keysOf l := by
  induction l with
  | nil => simpa [mapErase] using h
  | cons p rest ih =>
    by_cases hp : p.1 = k
    · simp only [mapErase, hp, if_true] at h
      simp [keysOf]; right; simpa [keysOf] using h
    · simp only [mapErase, hp, if_false, keysOf, List.map_cons, List.mem_cons] at h
      rcases h with h | h
      · simp [keysOf, h]
      · simp [keysOf]; right; simpa [keysOf] using ih (by simpa [keysOf] using h)

theorem nodupKeys_mapInsert {l : List (κ × ν)} (k : κ) (v : ν) (h : NodupKeys l) :
    NodupKeys (mapInsert k v l) := by
  induction l with
  | nil => simp [mapInsert, NodupKeys, keysOf]
  | cons p rest ih =>
    simp only [NodupKeys, keysOf, List.map_cons, List.nodup_cons] at h
    by_cases hp : p.1 = k
    · subst hp
      simpa [mapInsert, NodupKeys, keysOf] using h
    · have h2 := ih h.2
      simp only [mapInsert, hp, if_false, NodupKeys, keysOf, List.map_cons, List.nodup_cons]
      refine ⟨fun hmem => ?_, h2⟩
      rcases mem_keysOf_mapInsert (by simpa [keysOf] using hmem) with h' | h'
      · exact hp h'
      · exact h.1 (by simpa [keysOf] using h')

theorem nodupKeys_mapErase {l : List (κ × ν)} (k : κ) (h : NodupKeys l) :
    NodupKeys (mapErase k l) := by
  induction l with
  | nil => simp [mapErase, NodupKeys, keysOf]
  | cons p rest ih =>
    simp only [NodupKeys, keysOf, List.map_cons, List.nodup_cons] at h
    by_cases hp : p.1 = k
    · simp only [mapErase, hp, if_true]
      exact h.2
    · simp only [mapErase, hp, if_false, NodupKeys, keysOf, List.map_cons, List.nodup_cons]
      exact ⟨fun hmem => h.1 (mem_keysOf_mapErase (by simpa [keysOf] using hmem)), ih h.2⟩

theorem mem_mapInsert_self (k : κ) (v : ν) (l : List (κ × ν)) :
    (k, v) ∈ mapInsert k v l := by
  induction l with
  | nil => simp [mapInsert]
  | cons p rest ih =>
    by_cases hp : p.1 = k
    · simp [mapInsert, hp]
    · simp [mapInsert, hp, ih]

theorem mem_mapInsert_iff {p : κ × ν} {k : κ} {v : ν} {l : List (κ × ν)} (h : NodupKeys l) :
    p ∈ mapInsert k v l ↔ p = (k, v) ∨ (p ∈ l ∧ p.1 ≠ k) := by
  induction l with
  | nil =>
    constructor
    · intro hm; simp [mapInsert] at hm; exact Or.inl hm
    · intro hm
      rcases hm with hm | hm
      · simp [mapInsert, hm]
      · simp at hm
  | cons q rest ih =>
    simp only [NodupKeys, keysOf, List.map_cons, List.nodup_cons] at h
    by_cases hq : q.1 = k
    · simp only [mapInsert, hq, if_true]
      constructor
      · intro hm
        rcases List.mem_cons.mp hm with hm | hm
        · exact Or.inl hm
        · refine Or.inr ⟨List.mem_cons.mpr (Or.inr hm), fun hpk => ?_⟩
          apply h.1
          have hmm : p.1 ∈ List.map Prod.fst rest := List.mem_map_of_mem Prod.fst hm
          rw [hpk] at hmm
          rw [hq]
          exact hmm
      · intro hm
        rcases hm with hm | hm
        · exact List.mem_cons.mpr (Or.inl hm)
        · rcases List.mem_cons.mp hm.1 with hm' | hm'
          · exact absurd (hm' ▸ hq) hm.2
          · exact List.mem_cons.mpr (Or.inr hm')
    · simp only [mapInsert, hq, if_false]
      constructor
      · intro hm
        rcases List.mem_cons.mp hm with hm | hm
        · subst hm
          exact Or.inr ⟨List.mem_cons.mpr (Or.inl rfl), hq⟩
        · rcases (ih h.2).mp hm with hm' | hm'
          · exact Or.inl hm'
          · exact Or.inr ⟨List.mem_cons.mpr (Or.inr hm'.1), hm'.2⟩
      · intro hm
        rcases hm with hm | hm
        · exact List.mem_cons.mpr (Or.inr ((ih h.2).mpr (Or.inl hm)))
        · rcases List.mem_cons.mp hm.1 with hm' | hm'
          · exact List.mem_cons.mpr (Or.inl hm')
          · exact List.mem_cons.mpr (Or.inr ((ih h.2).mpr (Or.inr ⟨hm', hm.2⟩)))

theorem mem_mapErase_iff {p : κ × ν} {k : κ} {l : List (κ × ν)} (h : NodupKeys l) :
    p ∈ mapErase k l ↔ p ∈ l ∧ p.1 ≠ k := by
  induction l with
  | nil => simp [mapErase]
  | cons q rest ih =>
    simp only [NodupKeys, keysOf, List.map_cons, List.nodup_cons] at h
    by_cases hq : q.1 = k
    · simp only [mapErase, hq, if_true]
      constructor
      · intro hm
        refine ⟨List.mem_cons.mpr (Or.inr hm), fun hpk => ?_⟩
        apply h.1
        have hmm : p.1 ∈ List.map Prod.fst rest := List.mem_map_of_mem Prod.fst hm
        rw [hpk] at hmm
        rw [hq]
        exact hmm
      · intro hm
        rcases List.mem_cons.mp hm.1 with hm' | hm'
        · exact absurd (hm' ▸ hq) hm.2
        · exact hm'
    · simp only [mapErase, hq, if_false]
      constructor
      · intro hm
        rcases List.mem_cons.mp hm with hm | hm
        · exact ⟨List.mem_cons.mpr (Or.inl hm), hm ▸ hq⟩
        · have := (ih h.2).mp hm
          exact ⟨List.mem_cons.mpr (Or.inr this.1), this.2⟩
      · intro hm
        rcases List.mem_cons.mp hm.1 with hm' | hm'
        · exact List.mem_cons.mpr (Or.inl hm')
        · exact List.mem_cons.mpr (Or.inr ((ih h.2).mpr ⟨hm', hm.2⟩))

theorem mlookup_mem {k : κ} {v : ν} {l : List (κ × ν)} (h : mlookup k l = some v) :
    (k, v) ∈ l := by
  induction l with
  | nil => simp [mlookup] at h
  | cons p rest ih =>
    by_cases hp : p.1 = k
    · simp only [mlookup, hp, if_true, Option.some.injEq] at h
      exact List.mem_cons.mpr (Or.inl (by cases p; simp_all))
    · simp only [mlookup, hp, if_false] at h
      exact List.mem_cons.mpr (Or.inr (ih h))

theorem mem_mlookup {k : κ} {v : ν} {l : List (κ × ν)} (h : NodupKeys l)
    (hm : (k, v) ∈ l) : mlookup k l = some v := by
  induction l with
  | nil => simp at hm
  | cons p rest ih =>
    simp only [NodupKeys, keysOf, List.map_cons, List.nodup_cons] at h
    rcases List.mem_cons.mp hm with hm' | hm'
    · rw [← hm']
      simp [mlookup]
    · by_cases hp : p.1 = k
      · exfalso
        apply h.1
        rw [hp]
        exact List.mem_map_of_mem Prod.fst hm'
      · simp only [mlookup, hp, if_false]
        exact ih h.2 hm'

theorem nodup_key_inj {l : List (κ × ν)} (h : NodupKeys l) {p p' : κ × ν}
    (hp : p ∈ l) (hp' : p' ∈ l) (hk : p.1 = p'.1) : p = p' := by
  have h1 : mlookup p.1 l = some p.2 := mem_mlookup h (by simpa using hp)
  have h2 : mlookup p'.1 l = some p'.2 := mem_mlookup h (by simpa using hp')
  rw [hk] at h1
  rw [h1] at h2
  have := Option.some.inj h2
  cases p; cases p'
  simp_all

end MapLemmas

theorem nodup_of_nodupKeys {κ ν : Type} {l : List (κ × ν)} (h : NodupKeys l) : l.Nodup :=
  List.Nodup.of_map Prod.fst h

theorem findRoomAux_mem {n rn : String} {rooms : List (String × List (String × Nat))}
    (h : findRoomAux n rooms = some rn) :
    ∃ mem, (rn, mem) ∈ rooms ∧ (mlookup n mem).isSome := by
  induction rooms with
  | nil => simp [findRoomAux] at h
  | cons p rest ih =>
    by_cases hp : (mlookup n p.2).isSome
    · simp only [findRoomAux, hp, if_true, Option.some.injEq] at h
      exact ⟨p.2, by rw [← h]; exact List.mem_cons.mpr (Or.inl rfl), hp⟩
    · simp only [findRoomAux, hp, if_false] at h
      obtain ⟨mem, hmem, hs⟩ := ih h
      exact ⟨mem, List.mem_cons.mpr (Or.inr hmem), hs⟩

theorem findRoomAux_eq_none {n : String} {rooms : List (String × List (String × Nat))}
    (h : ∀ p ∈ rooms, mlookup n p.2 = none) : findRoomAux n rooms = none := by
  induction rooms with
  | nil => simp [findRoomAux]
  | cons p rest ih =>
    have hp : mlookup n p.2 = none := h p (List.mem_cons.mpr (Or.inl rfl))
    simp only [findRoomAux, hp, Option.isSome_none, Bool.false_eq_true, if_false]
    exact ih fun q hq => h q (List.mem_cons.mpr (Or.inr hq))

theorem findRoomAux_none_forall {n : String} {rooms : List (String × List (String × Nat))}
    (h : findRoomAux n rooms = none) : ∀ p ∈ rooms, mlookup n p.2 = none := by
  induction rooms with
  | nil => simp
  | cons p rest ih =>
    by_cases hp : (mlookup n p.2).isSome
    · simp [findRoomAux, hp] at h
    · simp only [findRoomAux, hp, if_false] at h
      intro q hq
      rcases List.mem_cons.mp hq with hq' | hq'
      · rw [hq']
        exact Option.not_isSome_iff_eq_none.mp hp
      · exact ih h q hq'

theorem countP_eq_one_unique {α : Type} {l : List α} {pred : α → Bool} {q : α}
    (hnd : l.Nodup) (hq : q ∈ l) (hpq : pred q = true)
    (huniq : ∀ p ∈ l, pred p = true → p = q) : l.countP pred = 1 := by
  induction l with
  | nil => simp at hq
  | cons x rest ih =>
    rcases List.nodup_cons.mp hnd with ⟨hx, hrest⟩
    rcases List.mem_cons.mp hq with h | h
    · subst h
      rw [List.countP_cons_of_pos _ _ hpq]
      have : rest.countP pred = 0 := List.countP_eq_zero.mpr fun a ha hpa => by
        have := huniq a (List.mem_cons.mpr (Or.inr ha)) hpa
        subst this
        exact hx ha
      rw [this]
    · have hxq : ¬pred x = true := fun hpx => by
        have := huniq x (List.mem_cons.mpr (Or.inl rfl)) hpx
        subst this
        exact hx h
      rw [List.countP_cons_of_neg _ _ hxq]
      exact ih hrest h fun a ha hpa => huniq a (List.mem_cons.mpr (Or.inr ha)) hpa

theorem findRoomAux_unique {n rn : String} {mem : List (String × Nat)}
    {rooms : List (String × List (String × Nat))}
    (hmem : (rn, mem) ∈ rooms) (hs : (mlookup n mem).isSome)
    (huniq : ∀ p ∈ rooms, (mlookup n p.2).isSome → p = (rn, mem)) :
    findRoomAux n rooms = some rn := by
  induction rooms with
  | nil => simp at hmem
  | cons p rest ih =>
    by_cases hp : (mlookup n p.2).isSome
    · have hpe := huniq p (List.mem_cons.mpr (Or.inl rfl)) hp
      rw [hpe]
      simp [findRoomAux, hs]
    · simp only [findRoomAux, hp, if_false]
      rcases List.mem_cons.mp hmem with hm | hm
      · exact absurd (show (mlookup n p.2).isSome by rw [← hm]; exact hs) hp
      · exact ih hm fun q hq hqs => huniq q (List.mem_cons.mpr (Or.inr hq)) hqs

theorem tryDelete_clients (s : ServerState) (c : Nat) :
    (tryDeleteFromRoom s c).clients = s.clients := by
  unfold tryDeleteFromRoom
  cases findRoom s c <;> rfl

theorem tryDelete_nicks (s : ServerState) (c : Nat) :
    (tryDeleteFromRoom s c).nicks = s.nicks := by
  unfold tryDeleteFromRoom
  cases findRoom s c <;> rfl

theorem nickOf_tryDelete (s : ServerState) (c c' : Nat) :
    nickOf (tryDeleteFromRoom s c) c' = nickOf s c' := by
  unfold nickOf
  rw [tryDelete_nicks]

theorem addClient_snd (s : ServerState) (c : Nat) :
    (addClient s c).2 =
      if clientExists s (nickOf s c) then some ChatError.clientAlreadyExists else none := by
  unfold addClient
  by_cases hc : clientExists s (nickOf s c) <;> simp [hc]

theorem joinRoom_snd (s : ServerState) (rn : String) (c : Nat) :
    (joinRoom s rn c).2 =
      if clientExists s (nickOf s c) then some ChatError.clientAlreadyExists else none := by
  simp only [joinRoom, addClient_snd]
  by_cases hr : roomExists s rn
  · simp only [hr, if_true]
    rfl
  · simp only [hr, if_false]
    rfl

theorem mapErase_of_none {κ ν : Type} [DecidableEq κ] {k : κ} {l : List (κ × ν)}
    (h : mlookup k l = none) : mapErase k l = l := by
  induction l with
  | nil => rfl
  | cons p rest ih =>
    by_cases hp : p.1 = k
    · simp [mlookup, hp] at h
    · simp only [mlookup, hp, if_false] at h
      simp [mapErase, hp, ih h]

theorem mapInsert_mapInsert {κ ν : Type} [DecidableEq κ] (k : κ) (v₁ v₂ : ν)
    (l : List (κ × ν)) : mapInsert k v₂ (mapInsert k v₁ l) = mapInsert k v₂ l := by
  induction l with
  | nil => simp [mapInsert]
  | cons p rest ih =>
    by_cases hp : p.1 = k
    · simp [mapInsert, hp]
    · simp [mapInsert, hp, ih]

theorem wf_nodup_clients {s : ServerState} (hw : WellFormed s) : NodupKeys s.clients :=
  hw.1.2.1

theorem wf_nodup_rooms {s : ServerState} (hw : WellFormed s) : NodupKeys s.rooms :=
  hw.1.2.2.1

theorem wf_nodup_mem {s : ServerState} (hw : WellFormed s) {p} (hp : p ∈ s.rooms) :
    NodupKeys p.2 :=
  hw.1.2.2.2 p hp

/-- Under well-formedness, at most one room contains a given nickname key. -/
theorem wf_roomkey_unique {s : ServerState} (hw : WellFormed s) {n : String}
    {p₁ p₂ : String × List (String × Nat)} (h₁ : p₁ ∈ s.rooms) (h₂ : p₂ ∈ s.rooms)
    (k₁ : (mlookup n p₁.2).isSome) (k₂ : (mlookup n p₂.2).isSome) : p₁ = p₂ := by
  obtain ⟨c₁, hc₁⟩ := Option.isSome_iff_exists.mp k₁
  obtain ⟨c₂, hc₂⟩ := Option.isSome_iff_exists.mp k₂
  have m₁ := mlookup_mem hc₁
  have m₂ := mlookup_mem hc₂
  have i₁ := hw.2.2.1 p₁ h₁ (n, c₁) m₁
  have i₂ := hw.2.2.1 p₂ h₂ (n, c₂) m₂
  rw [i₁] at i₂
  exact hw.2.2.2.2 p₁ h₁ p₂ h₂ (n, c₁) m₁ (n, c₂) m₂ (Option.some.inj i₂)

/-- Under well-formedness, a client cannot appear twice (under two nicks)
in the same room's member map. -/
theorem wf_member_value_inj {s : ServerState} (hw : WellFormed s)
    {p : String × List (String × Nat)} (hp : p ∈ s.rooms)
    {q₁ q₂ : String × Nat} (h₁ : q₁ ∈ p.2) (h₂ : q₂ ∈ p.2) (hv : q₁.2 = q₂.2) :
    q₁ = q₂ := by
  have i₁ := hw.2.2.1 p hp q₁ h₁
  have i₂ := hw.2.2.1 p hp q₂ h₂
  have n₁ : nickOf s q₁.2 = q₁.1 := hw.2.1 _ (mlookup_mem i₁)
  have n₂ : nickOf s q₂.2 = q₂.1 := hw.2.1 _ (mlookup_mem i₂)
  exact nodup_key_inj (hw.1.2.2.2 p hp) h₁ h₂ (by rw [← n₁, ← n₂, hv])

/-- Under well-formedness, `findRoomAux` returns the room known to contain
the key. -/
theorem wf_findRoomAux_some {s : ServerState} (hw : WellFormed s) {n rn : String}
    {mem : List (String × Nat)} (hmem : (rn, mem) ∈ s.rooms)
    (hk : (mlookup n mem).isSome) : findRoomAux n s.rooms = some rn :=
  findRoomAux_unique hmem hk fun _ hp hps => wf_roomkey_unique hw hp hmem hps hk

/-- Unpacking a successful `findRoom`: the room is present in the map under
its name, and the member map contains the client's nick as a key. -/
theorem findRoom_some_elim {s : ServerState} {c : Nat} {r0 : String}
    (hw : WellFormed s) (h : findRoom s c = some r0) :
    mlookup r0 s.rooms = some (roomMembers s r0) ∧
    (r0, roomMembers s r0) ∈ s.rooms ∧
    (mlookup (nickOf s c) (roomMembers s r0)).isSome := by
  obtain ⟨mem, hmem, hk⟩ := findRoomAux_mem h
  have hl : mlookup r0 s.rooms = some mem := mem_mlookup hw.1.2.2.1 hmem
  have hrm : roomMembers s r0 = mem := by unfold roomMembers; rw [hl]; rfl
  rw [hrm]
  exact ⟨hl, hmem, hk⟩

/-- The success branch of ChangeNick, with all four map updates spelled
out in the order the Go code performs them. -/
theorem changeNick_success_fields (s : ServerState) (a b : String) (cl : Nat) (rn : String)
    (hb : clientExists s b = false)
    (ha : mlookup a s.clients = some cl)
    (hfr : findRoom s cl = some rn) :
    ChangeNick s a b =
      ({ nicks := mapInsert cl b s.nicks,
         clients := mapInsert b cl (mapErase a s.clients),
         rooms := mapInsert rn (mapInsert b cl (mapErase a (roomMembers s rn))) s.rooms },
       none) := by
  unfold ChangeNick
  simp [hb, ha, hfr]

/-- ChangeNick preserves well-formedness (hence the registry invariant). -/
theorem changeNick_wf (s : ServerState) (a b : String) (hw : WellFormed s) :
    WellFormed (ChangeNick s a b).1 := by
  by_cases hb : clientExists s b
  · unfold ChangeNick
    simp only [hb, if_true]
    exact hw
  · rcases ha : mlookup a s.clients with _ | cl
    · unfold ChangeNick
      simp only [hb, Bool.false_eq_true, if_false, ha]
      exact hw
    · rcases hfr : findRoom s cl with _ | rn
      · unfold ChangeNick
        simp only [hb, Bool.false_eq_true, if_false, ha, hfr]
        exact hw
      · have hb' : clientExists s b = false := by simpa using hb
        rw [changeNick_success_fields s a b cl rn hb' ha hfr]
        show WellFormed
          { nicks := mapInsert cl b s.nicks,
            clients := mapInsert b cl (mapErase a s.clients),
            rooms := mapInsert rn (mapInsert b cl (mapErase a (roomMembers s rn))) s.rooms }
        obtain ⟨hrl, hrmem, hrk⟩ := findRoom_some_elim hw hfr
        have hacl : (a, cl) ∈ s.clients := mlookup_mem ha
        have hna : nickOf s cl = a := hw.2.1 (a, cl) hacl
        have hbn : mlookup b s.clients = none := by
          unfold clientExists at hb'
          exact Option.not_isSome_iff_eq_none.mp (by simp [hb'])
        have hab : a ≠ b := fun h => by rw [h, hbn] at ha; exact Option.noConfusion ha
        set mem := roomMembers s rn with hmemdef
        have hka : mlookup a mem = some cl := by
          rw [hna] at hrk
          obtain ⟨v, hv⟩ := Option.isSome_iff_exists.mp hrk
          have := hw.2.2.1 _ hrmem (a, v) (mlookup_mem hv)
          rw [ha] at this
          rw [hv, Option.some.inj this]
        have hndc : NodupKeys s.clients := wf_nodup_clients hw
        have hndr : NodupKeys s.rooms := wf_nodup_rooms hw
        have hndm : NodupKeys mem := wf_nodup_mem hw hrmem
        have hclval : ∀ q ∈ s.clients, q.2 = cl → q = (a, cl) := by
          intro q hq hqv
          have : nickOf s q.2 = q.1 := hw.2.1 q hq
          rw [hqv, hna] at this
          exact nodup_key_inj hndc hq hacl this.symm
        have hkeyb : ∀ p ∈ s.rooms, ∀ v, (b, v) ∈ p.2 → False := by
          intro p hp v hv
          have := hw.2.2.1 p hp (b, v) hv
          rw [hbn] at this
          exact Option.noConfusion this
        set memNew := mapInsert b cl (mapErase a mem) with hmemNew
        set clientsNew := mapInsert b cl (mapErase a s.clients) with hclientsNew
        have hndmN : NodupKeys memNew := nodupKeys_mapInsert _ _ (nodupKeys_mapErase _ hndm)
        have hndcN : NodupKeys clientsNew := nodupKeys_mapInsert _ _ (nodupKeys_mapErase _ hndc)
        have hmemN_iff : ∀ q : String × Nat, q ∈ memNew ↔
            q = (b, cl) ∨ (q ∈ mem ∧ q.1 ≠ a ∧ q.1 ≠ b) := by
          intro q
          rw [hmemNew, mem_mapInsert_iff (nodupKeys_mapErase _ hndm)]
          constructor
          · rintro (h | ⟨h1, h2⟩)
            · exact Or.inl h
            · have := (mem_mapErase_iff hndm).mp h1
              exact Or.inr ⟨this.1, this.2, h2⟩
          · rintro (h | ⟨h1, h2, h3⟩)
            · exact Or.inl h
            · exact Or.inr ⟨(mem_mapErase_iff hndm).mpr ⟨h1, h2⟩, h3⟩
        have hcliN_iff : ∀ q : String × Nat, q ∈ clientsNew ↔
            q = (b, cl) ∨ (q ∈ s.clients ∧ q.1 ≠ a ∧ q.1 ≠ b) := by
          intro q
          rw [hclientsNew, mem_mapInsert_iff (nodupKeys_mapErase _ hndc)]
          constructor
          · rintro (h | ⟨h1, h2⟩)
            · exact Or.inl h
            · have := (mem_mapErase_iff hndc).mp h1
              exact Or.inr ⟨this.1, this.2, h2⟩
          · rintro (h | ⟨h1, h2, h3⟩)
            · exact Or.inl h
            · exact Or.inr ⟨(mem_mapErase_iff hndc).mpr ⟨h1, h2⟩, h3⟩
        have hroomsN_iff : ∀ p : String × List (String × Nat),
            p ∈ mapInsert rn memNew s.rooms ↔
            p = (rn, memNew) ∨ (p ∈ s.rooms ∧ p.1 ≠ rn) := fun p =>
          mem_mapInsert_iff hndr
        have hlookN : ∀ k, k ≠ a → k ≠ b →
            mlookup k clientsNew = mlookup k s.clients := by
          intro k hka' hkb
          rw [hclientsNew, mlookup_mapInsert_ne (fun h => hkb h.symm),
            mlookup_mapErase_ne (fun h => hka' h.symm)]
        have hlookb : mlookup b clientsNew = some cl := by
          rw [hclientsNew]; exact mlookup_mapInsert_self _ _ _
        have hnickN : ∀ x : Nat, x ≠ cl →
            (mlookup x (mapInsert cl b s.nicks)).getD "" = nickOf s x := by
          intro x hx
          rw [mlookup_mapInsert_ne (fun h => hx h.symm)]
          rfl
        have hnickcl : (mlookup cl (mapInsert cl b s.nicks)).getD "" = b := by
          rw [mlookup_mapInsert_self]
          rfl
        refine ⟨⟨?_, ?_, ?_, ?_⟩, ?_, ?_, ?_, ?_⟩
        · exact nodupKeys_mapInsert _ _ hw.1.1
        · exact hndcN
        · exact nodupKeys_mapInsert _ _ hndr
        · intro p hp
          rcases (hroomsN_iff p).mp hp with h | ⟨h, _⟩
          · rw [h]; exact hndmN
          · exact wf_nodup_mem hw h
        · intro q hq
          rcases (hcliN_iff q).mp hq with h | ⟨h1, h2, h3⟩
          · rw [h]; exact hnickcl
          · have hqv : q.2 ≠ cl := fun hv => h2 (congrArg Prod.fst (hclval q h1 hv))
            exact (hnickN q.2 hqv).trans (hw.2.1 q h1)
        · intro p hp q hq
          rcases (hroomsN_iff p).mp hp with h | ⟨h1, h2⟩
          · rw [h] at hq
            simp only at hq
            rcases (hmemN_iff q).mp hq with hq' | ⟨hq1, hq2, hq3⟩
            · rw [hq']; exact hlookb
            · rw [hlookN q.1 hq2 hq3]
              exact hw.2.2.1 _ hrmem q hq1
          · have hq1 : mlookup q.1 s.clients = some q.2 := hw.2.2.1 p h1 q hq
            have hqa : q.1 ≠ a := by
              intro hqa
              have : p = (rn, mem) :=
                wf_roomkey_unique hw h1 hrmem
                  (by have hm := mem_mlookup (hw.1.2.2.2 p h1) hq
                      rw [hqa] at hm
                      exact Option.isSome_iff_exists.mpr ⟨q.2, hm⟩)
                  (by show (mlookup a mem).isSome
                      rw [hka]
                      rfl)
              exact h2 (congrArg Prod.fst this)
            have hqb : q.1 ≠ b := by
              intro hqb
              exact hkeyb p h1 q.2 (by rw [← hqb]; exact hq)
            rw [hlookN q.1 hqa hqb]
            exact hq1
        · intro q hq
          rcases (hcliN_iff q).mp hq with h | ⟨h1, h2, h3⟩
          · refine ⟨(rn, memNew), (hroomsN_iff _).mpr (Or.inl rfl), ?_⟩
            rw [h]
            simp only
            rw [hmemNew]
            exact mlookup_mapInsert_self _ _ _
          · obtain ⟨p, hp, hpl⟩ := hw.2.2.2.1 q h1
            by_cases hprn : p.1 = rn
            · have hpmem : p = (rn, mem) := nodup_key_inj hndr hp hrmem hprn
              refine ⟨(rn, memNew), (hroomsN_iff _).mpr (Or.inl rfl), ?_⟩
              simp only
              rw [hmemNew, mlookup_mapInsert_ne (fun h => h3 h.symm),
                mlookup_mapErase_ne (fun h => h2 h.symm)]
              rw [hpmem] at hpl
              exact hpl
            · exact ⟨p, (hroomsN_iff _).mpr (Or.inr ⟨hp, hprn⟩), hpl⟩
        · intro p₁ hp₁ p₂ hp₂ q₁ hq₁ q₂ hq₂ hv
          have key : ∀ p : String × List (String × Nat), p ∈ s.rooms → p.1 ≠ rn →
              ∀ q : String × Nat, q ∈ p.2 → ∀ qA : String × Nat, qA ∈ memNew →
              qA.2 = q.2 → False := by
            intro p hpo hpn q hqo qA hqA hvv
            rcases (hmemN_iff qA).mp hqA with h | ⟨h1, h2, h3⟩
            · have hq2cl : q.2 = cl := by rw [← hvv, h]
              have hq1 : mlookup q.1 s.clients = some q.2 := hw.2.2.1 p hpo q hqo
              have := hclval q (mlookup_mem hq1) hq2cl
              have hqa : q.1 = a := congrArg Prod.fst this
              have hm : mlookup a p.2 = some q.2 := by
                have hm0 := mem_mlookup (hw.1.2.2.2 p hpo) hqo
                rw [hqa] at hm0
                exact hm0
              have : p = (rn, mem) :=
                wf_roomkey_unique hw hpo hrmem
                  (Option.isSome_iff_exists.mpr ⟨q.2, hm⟩)
                  (by show (mlookup a mem).isSome
                      rw [hka]
                      rfl)
              exact hpn (congrArg Prod.fst this)
            · have := hw.2.2.2.2 (rn, mem) hrmem p hpo qA h1 q hqo hvv
              exact hpn (congrArg Prod.fst this).symm
          rcases (hroomsN_iff p₁).mp hp₁ with h₁ | ⟨h₁, h₁n⟩ <;>
            rcases (hroomsN_iff p₂).mp hp₂ with h₂ | ⟨h₂, h₂n⟩
          · rw [h₁, h₂]
          · exact (key p₂ h₂ h₂n q₂ hq₂ q₁ (by rw [h₁] at hq₁; exact hq₁) hv).elim
          · exact (key p₁ h₁ h₁n q₁ hq₁ q₂ (by rw [h₂] at hq₂; exact hq₂) hv.symm).elim
          · exact hw.2.2.2.2 p₁ h₁ p₂ h₂ q₁ hq₁ q₂ hq₂ hv

theorem addClient_fst_nicks (s : ServerState) (c : Nat) :
    (addClient s c).1.nicks = s.nicks := by
  unfold addClient
  split <;> rfl

theorem addClient_fst_rooms (s : ServerState) (c : Nat) :
    (addClient s c).1.rooms = s.rooms := by
  unfold addClient
  split <;> rfl

theorem addClient_fst_clients (s : ServerState) (c : Nat) :
    (addClient s c).1.clients =
      if clientExists s (nickOf s c) then s.clients
      else mapInsert (nickOf s c) c s.clients := by
  unfold addClient
  split <;> rename_i h <;> simp [h]

theorem roomExists_false_members {s : ServerState} {rn : String}
    (hr : roomExists s rn = false) : roomMembers s rn = [] := by
  unfold roomMembers
  unfold roomExists at hr
  cases h : mlookup rn s.rooms with
  | none => rfl
  | some v => rw [h] at hr; simp at hr

theorem joinRoom_nicks (s : ServerState) (rn : String) (c : Nat) :
    (joinRoom s rn c).1.nicks = s.nicks := by
  unfold joinRoom
  rw [addClient_fst_nicks]
  rcases Bool.dichotomy (roomExists s rn) with hr | hr <;> simp [hr, createRoom]

theorem joinRoom_nickOf (s : ServerState) (rn : String) (c c' : Nat) :
    nickOf (joinRoom s rn c).1 c' = nickOf s c' := by
  unfold nickOf
  rw [joinRoom_nicks]

theorem joinRoom_clients (s : ServerState) (rn : String) (c : Nat) :
    (joinRoom s rn c).1.clients =
      if clientExists s (nickOf s c) then s.clients
      else mapInsert (nickOf s c) c s.clients := by
  unfold joinRoom
  rw [addClient_fst_clients]
  rcases Bool.dichotomy (roomExists s rn) with hr | hr <;>
    simp [hr, createRoom, clientExists, nickOf]

theorem joinRoom_rooms (s : ServerState) (rn : String) (c : Nat) :
    (joinRoom s rn c).1.rooms =
      mapInsert rn (mapInsert (nickOf s c) c (roomMembers s rn)) s.rooms := by
  unfold joinRoom
  rw [addClient_fst_rooms]
  rcases Bool.dichotomy (roomExists s rn) with hr | hr
  · have hm2 : mlookup rn s.rooms = none := by
      unfold roomExists at hr
      exact Option.not_isSome_iff_eq_none.mp (by simp [hr])
    simp [hr, createRoom, roomMembers, nickOf, mlookup_mapInsert_self,
      mapInsert_mapInsert, hm2]
  · simp [hr]

theorem tryDelete_eq_of_none {s : ServerState} {c : Nat} (h : findRoom s c = none) :
    tryDeleteFromRoom s c = s := by
  unfold tryDeleteFromRoom
  rw [h]

theorem tryDelete_eq_of_some {s : ServerState} {c : Nat} {r0 : String}
    (h : findRoom s c = some r0) :
    tryDeleteFromRoom s c =
      { s with rooms := mapInsert r0 (mapErase (nickOf s c) (roomMembers s r0)) s.rooms } := by
  unfold tryDeleteFromRoom
  rw [h]

/-- What `tryDeleteFromRoom` guarantees on a well-formed state: the nicks
and clients maps are untouched, key uniqueness and the room side of the
invariant survive, the client's nick is in no room afterwards, and every
index entry under a different nick keeps its room. -/
theorem tryDelete_spec (s : ServerState) (c : Nat) (hw : WellFormed s) :
    StateNodup (tryDeleteFromRoom s c) ∧
    NickConsistent (tryDeleteFromRoom s c) ∧
    RoomSide (tryDeleteFromRoom s c) ∧
    AtMostOneRoom (tryDeleteFromRoom s c) ∧
    (∀ p ∈ (tryDeleteFromRoom s c).rooms, mlookup (nickOf s c) p.2 = none) ∧
    (∀ q ∈ s.clients, q.1 ≠ nickOf s c →
      ∃ p ∈ (tryDeleteFromRoom s c).rooms, mlookup q.1 p.2 = some q.2) := by
  rcases hfr : findRoom s c with _ | r0
  · rw [tryDelete_eq_of_none hfr]
    refine ⟨hw.1, hw.2.1, hw.2.2.1, hw.2.2.2.2, ?_, ?_⟩
    · exact findRoomAux_none_forall hfr
    · intro q hq _
      exact hw.2.2.2.1 q hq
  · rw [tryDelete_eq_of_some hfr]
    obtain ⟨hrl, hrmem, hrk⟩ := findRoom_some_elim hw hfr
    set n := nickOf s c with hn
    set mem0 := roomMembers s r0 with hmem0
    set memE := mapErase n mem0 with hmemE
    have hndr : NodupKeys s.rooms := wf_nodup_rooms hw
    have hndm : NodupKeys mem0 := wf_nodup_mem hw hrmem
    have hrooms_iff : ∀ p : String × List (String × Nat),
        p ∈ mapInsert r0 memE s.rooms ↔ p = (r0, memE) ∨ (p ∈ s.rooms ∧ p.1 ≠ r0) :=
      fun _ => mem_mapInsert_iff hndr
    refine ⟨⟨hw.1.1, hw.1.2.1, nodupKeys_mapInsert _ _ hndr, ?_⟩, ?_, ?_, ?_, ?_, ?_⟩
    · intro p hp
      rcases (hrooms_iff p).mp hp with h | ⟨h, _⟩
      · rw [h]
        exact nodupKeys_mapErase _ hndm
      · exact wf_nodup_mem hw h
    · intro q hq
      exact hw.2.1 q hq
    · intro p hp q hq
      rcases (hrooms_iff p).mp hp with h | ⟨h, _⟩
      · rw [h] at hq
        have := (mem_mapErase_iff hndm).mp hq
        exact hw.2.2.1 (r0, mem0) hrmem q this.1
      · exact hw.2.2.1 p h q hq
    · intro p₁ hp₁ p₂ hp₂ q₁ hq₁ q₂ hq₂ hv
      have back : ∀ p : String × List (String × Nat), p ∈ mapInsert r0 memE s.rooms →
          ∀ q : String × Nat, q ∈ p.2 →
          ∃ pO : String × List (String × Nat), pO ∈ s.rooms ∧ pO.1 = p.1 ∧ q ∈ pO.2 := by
        intro p hp q hq
        rcases (hrooms_iff p).mp hp with h | ⟨h, _⟩
        · rw [h] at hq ⊢
          exact ⟨(r0, mem0), hrmem, rfl, ((mem_mapErase_iff hndm).mp hq).1⟩
        · exact ⟨p, h, rfl, hq⟩
      obtain ⟨pO₁, hpo₁, he₁, hqo₁⟩ := back p₁ hp₁ q₁ hq₁
      obtain ⟨pO₂, hpo₂, he₂, hqo₂⟩ := back p₂ hp₂ q₂ hq₂
      have heq : pO₁ = pO₂ := hw.2.2.2.2 pO₁ hpo₁ pO₂ hpo₂ q₁ hqo₁ q₂ hqo₂ hv
      have hkey : p₁.1 = p₂.1 := by rw [← he₁, ← he₂, heq]
      exact nodup_key_inj (nodupKeys_mapInsert _ _ hndr) hp₁ hp₂ hkey
    · intro p hp
      rcases (hrooms_iff p).mp hp with h | ⟨h, hne⟩
      · rw [h]
        exact mlookup_mapErase_self hndm
      · cases hq : mlookup n p.2 with
        | none => rfl
        | some v =>
          exfalso
          have : p = (r0, mem0) :=
            wf_roomkey_unique hw h hrmem (by rw [hq]; rfl) hrk
          exact hne (congrArg Prod.fst this)
    · intro q hq hqn
      obtain ⟨p, hp, hpl⟩ := hw.2.2.2.1 q hq
      by_cases hpr : p.1 = r0
      · have hpm : p = (r0, mem0) := nodup_key_inj hndr hp hrmem hpr
        refine ⟨(r0, memE), (hrooms_iff _).mpr (Or.inl rfl), ?_⟩
        rw [hmemE, mlookup_mapErase_ne (fun h => hqn h.symm)]
        rw [hpm] at hpl
        exact hpl
      · exact ⟨p, (hrooms_iff _).mpr (Or.inr ⟨hp, hpr⟩), hpl⟩

/-- The state produced by `joinRoom`, written as a record literal. -/
theorem joinRoom_state (s : ServerState) (rn : String) (c : Nat) :
    (joinRoom s rn c).1 =
      { nicks := s.nicks,
        clients := if clientExists s (nickOf s c) then s.clients
                   else mapInsert (nickOf s c) c s.clients,
        rooms := mapInsert rn (mapInsert (nickOf s c) c (roomMembers s rn)) s.rooms } := by
  rw [← joinRoom_nicks s rn c, ← joinRoom_clients s rn c, ← joinRoom_rooms s rn c]

/-- What `joinRoom` guarantees on a state shaped like the output of
`tryDeleteFromRoom`: well-formedness holds afterwards, the client's nick is
unchanged and now maps to the client in the flat index and in the target
room, and no other room contains the nick. -/
theorem joinRoom_core (s : ServerState) (rn : String) (c : Nat)
    (hnd : StateNodup s) (hnc : NickConsistent s)
    (hrs : RoomSide s) (hao : AtMostOneRoom s)
    (hisW : ∀ q ∈ s.clients, q.1 ≠ nickOf s c →
      ∃ p ∈ s.rooms, mlookup q.1 p.2 = some q.2)
    (hkey : ∀ p ∈ s.rooms, mlookup (nickOf s c) p.2 = none)
    (hidx : mlookup (nickOf s c) s.clients = none ∨
      mlookup (nickOf s c) s.clients = some c) :
    WellFormed (joinRoom s rn c).1 ∧
    nickOf (joinRoom s rn c).1 c = nickOf s c ∧
    mlookup (nickOf s c) (joinRoom s rn c).1.clients = some c ∧
    mlookup rn (joinRoom s rn c).1.rooms =
      some (mapInsert (nickOf s c) c (roomMembers s rn)) ∧
    (∀ p ∈ (joinRoom s rn c).1.rooms, p.1 ≠ rn → mlookup (nickOf s c) p.2 = none) := by
  rw [joinRoom_state s rn c]
  set n := nickOf s c with hn
  set memOld := roomMembers s rn with hmemOld
  set memNew := mapInsert n c memOld with hmemNew
  have hndr : NodupKeys s.rooms := hnd.2.2.1
  have hndc : NodupKeys s.clients := hnd.2.1
  have hrm_cases : memOld = [] ∨ (rn, memOld) ∈ s.rooms := by
    rcases hrm : mlookup rn s.rooms with _ | mem
    · left
      rw [hmemOld]
      unfold roomMembers
      rw [hrm]
      rfl
    · right
      have : memOld = mem := by
        rw [hmemOld]
        unfold roomMembers
        rw [hrm]
        rfl
      rw [this]
      exact mlookup_mem hrm
  have hndmO : NodupKeys memOld := by
    rcases hrm_cases with h | h
    · rw [h]
      simp [NodupKeys, keysOf]
    · exact hnd.2.2.2 (rn, memOld) h
  have hkeyO : mlookup n memOld = none := by
    rcases hrm_cases with h | h
    · rw [h]
      rfl
    · exact hkey (rn, memOld) h
  have hmemN_iff : ∀ q : String × Nat,
      q ∈ memNew ↔ q = (n, c) ∨ (q ∈ memOld ∧ q.1 ≠ n) := fun _ =>
    mem_mapInsert_iff hndmO
  have hrooms_iff : ∀ p : String × List (String × Nat),
      p ∈ mapInsert rn memNew s.rooms ↔ p = (rn, memNew) ∨ (p ∈ s.rooms ∧ p.1 ≠ rn) :=
    fun _ => mem_mapInsert_iff hndr
  set clientsNew := if clientExists s n then s.clients else mapInsert n c s.clients
    with hclientsNew
  have hF3 : NodupKeys clientsNew := by
    rw [hclientsNew]
    by_cases h : clientExists s n = true
    · rw [if_pos h]
      exact hndc
    · rw [if_neg h]
      exact nodupKeys_mapInsert _ _ hndc
  have hF1 : mlookup n clientsNew = some c := by
    rw [hclientsNew]
    by_cases h : clientExists s n = true
    · rw [if_pos h]
      rcases hidx with h' | h'
      · unfold clientExists at h
        rw [h'] at h
        simp at h
      · exact h'
    · rw [if_neg h]
      exact mlookup_mapInsert_self _ _ _
  have hF2 : ∀ k, k ≠ n → mlookup k clientsNew = mlookup k s.clients := by
    intro k hk
    rw [hclientsNew]
    by_cases h : clientExists s n = true
    · rw [if_pos h]
    · rw [if_neg h]
      exact mlookup_mapInsert_ne (fun h' => hk h'.symm) _ _
  have hF4 : ∀ q : String × Nat,
      q ∈ clientsNew ↔ q = (n, c) ∨ (q ∈ s.clients ∧ q.1 ≠ n) := by
    intro q
    rw [hclientsNew]
    by_cases h : clientExists s n = true
    · rw [if_pos h]
      rcases hidx with h' | h'
      · unfold clientExists at h
        rw [h'] at h
        simp at h
      · constructor
        · intro hq
          by_cases hq1 : q.1 = n
          · exact Or.inl (nodup_key_inj hndc hq (mlookup_mem h') hq1)
          · exact Or.inr ⟨hq, hq1⟩
        · rintro (hq | ⟨hq, _⟩)
          · rw [hq]
            exact mlookup_mem h'
          · exact hq
    · rw [if_neg h]
      exact mem_mapInsert_iff hndc
  have hkeyAll : ∀ p ∈ s.rooms, ∀ q ∈ p.2, q.1 ≠ n := by
    intro p hp q hq hq1
    have := mem_mlookup (hnd.2.2.2 p hp) hq
    rw [hq1] at this
    rw [hkey p hp] at this
    exact Option.noConfusion this
  have hclash : ∀ p ∈ s.rooms, p.1 ≠ rn → ∀ q ∈ p.2, ∀ qA ∈ memNew,
      qA.2 = q.2 → False := by
    intro p hp hpn q hq qA hqA hvv
    rcases (hmemN_iff qA).mp hqA with h | ⟨h, _⟩
    · have hq2c : q.2 = c := by rw [← hvv, h]
      have hl := hrs p hp q hq
      rw [hq2c] at hl
      have hq1n : nickOf s c = q.1 := hnc (q.1, c) (mlookup_mem hl)
      exact hkeyAll p hp q hq (by rw [hn]; exact hq1n.symm)
    · rcases hrm_cases with hO | hO
      · rw [hO] at h
        exact absurd h (List.not_mem_nil qA)
      · have := hao (rn, memOld) hO p hp qA h q hq hvv
        exact hpn (congrArg Prod.fst this).symm
  refine ⟨⟨⟨hnd.1, hF3, nodupKeys_mapInsert _ _ hndr, ?_⟩, ?_, ?_, ?_, ?_⟩,
    rfl, hF1, mlookup_mapInsert_self _ _ _, ?_⟩
  · intro p hp
    rcases (hrooms_iff p).mp hp with h | ⟨h, _⟩
    · rw [h]
      exact nodupKeys_mapInsert _ _ hndmO
    · exact hnd.2.2.2 p h
  · intro q hq
    rcases (hF4 q).mp hq with h | ⟨h, _⟩
    · rw [h]
      exact hn.symm
    · exact hnc q h
  · intro p hp q hq
    rcases (hrooms_iff p).mp hp with h | ⟨h, hne⟩
    · rw [h] at hq
      rcases (hmemN_iff q).mp hq with h' | ⟨h', hne'⟩
      · rw [h']
        exact hF1
      · rw [hF2 q.1 hne']
        rcases hrm_cases with hO | hO
        · rw [hO] at h'
          exact absurd h' (List.not_mem_nil q)
        · exact hrs (rn, memOld) hO q h'
    · have hq1 : q.1 ≠ n := hkeyAll p h q hq
      rw [hF2 q.1 hq1]
      exact hrs p h q hq
  · intro q hq
    rcases (hF4 q).mp hq with h | ⟨h, hne⟩
    · refine ⟨(rn, memNew), (hrooms_iff _).mpr (Or.inl rfl), ?_⟩
      rw [h]
      exact mlookup_mapInsert_self _ _ _
    · obtain ⟨p, hp, hpl⟩ := hisW q h hne
      by_cases hpr : p.1 = rn
      · have hpm : memOld = p.2 := by
          rw [hmemOld]
          unfold roomMembers
          rw [mem_mlookup hndr (show (rn, p.2) ∈ s.rooms by rw [← hpr]; exact hp)]
          rfl
        refine ⟨(rn, memNew), (hrooms_iff _).mpr (Or.inl rfl), ?_⟩
        show mlookup q.1 memNew = some q.2
        rw [hmemNew, mlookup_mapInsert_ne (fun h' => hne h'.symm), hpm]
        exact hpl
      · exact ⟨p, (hrooms_iff _).mpr (Or.inr ⟨hp, hpr⟩), hpl⟩
  · intro p₁ hp₁ p₂ hp₂ q₁ hq₁ q₂ hq₂ hv
    rcases (hrooms_iff p₁).mp hp₁ with h₁ | ⟨h₁, h₁n⟩ <;>
      rcases (hrooms_iff p₂).mp hp₂ with h₂ | ⟨h₂, h₂n⟩
    · rw [h₁, h₂]
    · exact (hclash p₂ h₂ h₂n q₂ hq₂ q₁ (by rw [h₁] at hq₁; exact hq₁) hv).elim
    · exact (hclash p₁ h₁ h₁n q₁ hq₁ q₂ (by rw [h₂] at hq₂; exact hq₂) hv.symm).elim
    · exact hao p₁ h₁ p₂ h₂ q₁ hq₁ q₂ hq₂ hv
  · intro p hp hpn
    rcases (hrooms_iff p).mp hp with h | ⟨h, _⟩
    · exact absurd (congrArg Prod.fst h) hpn
    · exact hkey p h

/-- `JoinRoom` on a well-formed state, for a client whose nickname is not
held by a different client: well-formedness is preserved, and afterwards
the nick maps to the client in the flat index and in the target room, and
in no other room. -/
theorem JoinRoom_spec (s : ServerState) (rn : String) (c : Nat) (hw : WellFormed s)
    (hidx : mlookup (nickOf s c) s.clients = none ∨
      mlookup (nickOf s c) s.clients = some c) :
    WellFormed (JoinRoom s rn c).1 ∧
    nickOf (JoinRoom s rn c).1 c = nickOf s c ∧
    mlookup (nickOf s c) (JoinRoom s rn c).1.clients = some c ∧
    mlookup (nickOf s c) (roomMembers (JoinRoom s rn c).1 rn) = some c ∧
    (∀ p ∈ (JoinRoom s rn c).1.rooms, p.1 ≠ rn → mlookup (nickOf s c) p.2 = none) := by
  obtain ⟨hnd1, hnc1, hrs1, hao1, hkey1, hisW1⟩ := tryDelete_spec s c hw
  set s1 := tryDeleteFromRoom s c with hs1
  have hnick1 : nickOf s1 c = nickOf s c := nickOf_tryDelete s c c
  have hcli1 : s1.clients = s.clients := tryDelete_clients s c
  have hisW1' : ∀ q ∈ s1.clients, q.1 ≠ nickOf s1 c →
      ∃ p ∈ s1.rooms, mlookup q.1 p.2 = some q.2 := by
    intro q hq hqn
    rw [hcli1] at hq
    rw [hnick1] at hqn
    exact hisW1 q hq hqn
  have hkey1' : ∀ p ∈ s1.rooms, mlookup (nickOf s1 c) p.2 = none := by
    intro p hp
    rw [hnick1]
    exact hkey1 p hp
  have hidx1 : mlookup (nickOf s1 c) s1.clients = none ∨
      mlookup (nickOf s1 c) s1.clients = some c := by
    rw [hnick1, hcli1]
    exact hidx
  obtain ⟨hwf, _, hF1, hroomL, hnone⟩ :=
    joinRoom_core s1 rn c hnd1 hnc1 hrs1 hao1 hisW1' hkey1' hidx1
  rw [hnick1] at hF1 hroomL hnone
  refine ⟨hwf, ?_, hF1, ?_, hnone⟩
  · show nickOf (joinRoom s1 rn c).1 c = nickOf s c
    rw [joinRoom_nickOf]
    exact hnick1
  · show mlookup (nickOf s c) (roomMembers (joinRoom s1 rn c).1 rn) = some c
    unfold roomMembers
    rw [hroomL]
    exact mlookup_mapInsert_self _ _ _

theorem Message_fst (s : ServerState) (now : String) (inputs : List String) (c : Nat) :
    (Message s now inputs c).1 = s := by
  unfold Message
  cases findRoom s c <;> rfl

/-- Under well-formedness, `CloseClient` on a client whose nick sits in no
room is a no-op on the registry maps (the nick cannot be in the flat index
either, by the invariant). -/
theorem closeClient_unseated_eq (s : ServerState) (c : Nat) (hw : WellFormed s)
    (hnr : ∀ p ∈ s.rooms, mlookup (nickOf s c) p.2 = none) :
    CloseClient s c = s := by
  have hn : mlookup (nickOf s c) s.clients = none := by
    cases h : mlookup (nickOf s c) s.clients with
    | none => rfl
    | some cv =>
      exfalso
      obtain ⟨p, hp, hpl⟩ := hw.2.2.2.1 (nickOf s c, cv) (mlookup_mem h)
      rw [hnr p hp] at hpl
      exact Option.noConfusion hpl
  unfold CloseClient
  rw [mapErase_of_none hn]

/-- `CloseClient` on a seated client breaks the invariant: the room entry
survives while the flat-index entry is gone. -/
theorem closeClient_seated_breaks (s : ServerState) (c : Nat) (hw : WellFormed s)
    {p : String × List (String × Nat)} (hp : p ∈ s.rooms)
    {q : String × Nat} (hq : q ∈ p.2) (hqc : q.2 = c) :
    ¬ InvariantHolds (CloseClient s c) := by
  intro hinv
  have hl := hw.2.2.1 p hp q hq
  have hn : nickOf s c = q.1 := by
    have := hw.2.1 q (mlookup_mem hl)
    rw [hqc] at this
    exact this
  have hrl : mlookup q.1 (CloseClient s c).clients = none := by
    unfold CloseClient
    show mlookup q.1 (mapErase (nickOf s c) s.clients) = none
    rw [hn]
    exact mlookup_mapErase_self (wf_nodup_clients hw)
  have hcontra := hinv.1 p hp q hq
  rw [hrl] at hcontra
  exact Option.noConfusion hcontra

/-- C2 counterexample: the sample registry is well-formed, yet after
CloseClient removes seated client 0 the invariant no longer holds — the
client stays in room "r" but is gone from the flat index. -/
theorem c2_counterexample :
    WellFormed sampleState ∧ ¬ InvariantHolds (CloseClient sampleState 0) := by
  decide

/-- C2 amended: on well-formed states, ChangeNick, Message and Blast
preserve the invariant unconditionally; JoinRoom preserves it provided the
joining client's nickname is not held by a different client in the flat
index; CloseClient preserves it exactly when the client's nick sits in no
room (then it is a no-op), and breaks it whenever the client is seated in
some room. -/
theorem c2_amended :
    (∀ s a b, WellFormed s → InvariantHolds (ChangeNick s a b).1) ∧
    (∀ s now ws c, WellFormed s → InvariantHolds (Message s now ws c).1) ∧
    (∀ s now ws c, WellFormed s → InvariantHolds (Blast s now ws c).1) ∧
    (∀ s rn c, WellFormed s →
      (mlookup (nickOf s c) s.clients = none ∨
        mlookup (nickOf s c) s.clients = some c) →
      InvariantHolds (JoinRoom s rn c).1) ∧
    (∀ s c, WellFormed s → (∀ p ∈ s.rooms, mlookup (nickOf s c) p.2 = none) →
      InvariantHolds (CloseClient s c)) ∧
    (∀ s c, WellFormed s →
      (∃ p ∈ s.rooms, ∃ q ∈ p.2, q.2 = c) → ¬ InvariantHolds (CloseClient s c)) := by
  refine ⟨?_, ?_, ?_, ?_, ?_, ?_⟩
  · intro s a b hw
    exact (changeNick_wf s a b hw).2.2
  · intro s now ws c hw
    rw [Message_fst]
    exact hw.2.2
  · intro s now ws c hw
    exact hw.2.2
  · intro s rn c hw hidx
    exact ((JoinRoom_spec s rn c hw hidx).1).2.2
  · intro s c hw hnr
    rw [closeClient_unseated_eq s c hw hnr]
    exact hw.2.2
  · rintro s c hw ⟨p, hp, q, hq, hqc⟩
    exact closeClient_seated_breaks s c hw hp hq hqc

/-- C2 amended witness: closing client 5 (nick "", seated nowhere) keeps
the invariant on the sample state. -/
theorem c2_witness : InvariantHolds (CloseClient sampleState 5) :=
  c2_amended.2.2.2.2.1 sampleState 5 (by decide) (by decide)

/-- C1 counterexample: in a well-formed registry where client 0's nickname
"a" is already in the flat index (the situation after any first join),
`JoinRoom` does not succeed: it returns the error `Client already exists`,
refuting the claim that a second or later join still returns success. -/
theorem c1_counterexample :
    WellFormed sampleState ∧
    (JoinRoom sampleState "g" 0).2 = some ChatError.clientAlreadyExists := by
  decide

/-- C1 amended: JoinRoom succeeds exactly when the client's nickname is not
yet in the flat index at call time; whenever the nickname is already
present (every join after the first), it returns the error
`Client already exists` instead of succeeding. -/
theorem c1_amended (s : ServerState) (rn : String) (c : Nat) :
    (JoinRoom s rn c).2 =
      if clientExists s (nickOf s c) then some ChatError.clientAlreadyExists else none := by
  unfold JoinRoom
  rw [joinRoom_snd]
  unfold clientExists
  rw [tryDelete_clients, nickOf_tryDelete]

/-- C4: when the target nickname `b` is already present in the flat index
(including the case `b = a`), `ChangeNick a b` returns the name-taken error
and the state is returned entirely unchanged: nicknames, flat index and all
room member maps are those of the input state. -/
theorem c4_rename_collision (s : ServerState) (a b : String)
    (h : clientExists s b = true) :
    ChangeNick s a b = (s, some (ChatError.nameTaken b)) := by
  unfold ChangeNick
  simp [h]

/-- C4 witness at the self-rename collision `b = a` on the sample state. -/
theorem c4_witness :
    clientExists sampleState "a" = true ∧
    ChangeNick sampleState "a" "a" = (sampleState, some (ChatError.nameTaken "a")) :=
  ⟨by decide, c4_rename_collision sampleState "a" "a" (by decide)⟩

/-- C7: when `oldN` is in the flat index held by a client whose nick field
is `oldN`, `newN` is free, and no room's member map contains `oldN`, then
`ChangeNick` returns the findRoom "does not have a room" error and the
state is unchanged. -/
theorem c7_rename_unseated (s : ServerState) (oldN newN : String) (cl : Nat)
    (hnick : nickOf s cl = oldN)
    (hold : mlookup oldN s.clients = some cl)
    (hnew : clientExists s newN = false)
    (hnr : ∀ p ∈ s.rooms, mlookup oldN p.2 = none) :
    ChangeNick s oldN newN = (s, some (ChatError.noRoom oldN)) := by
  have hfr : findRoom s cl = none := by
    unfold findRoom
    rw [hnick]
    exact findRoomAux_eq_none hnr
  unfold ChangeNick
  simp [hnew, hold, hfr, hnick]

/-- C7 witness: the unseated client "a" cannot be renamed. -/
theorem c7_witness :
    ChangeNick unseatedState "a" "b" = (unseatedState, some (ChatError.noRoom "a")) :=
  c7_rename_unseated unseatedState "a" "b" 0 (by decide) (by decide) (by decide)
    (by decide)

/-- C3 counterexample: with word list ["x", "y"], Blast delivers the line
formatted from the tail only ("[T:a] y"), while Message on the same word
list delivers "[T:a] x y" — the formats are not identical, refuting the
claim as stated (Blast skips the first word of its input). -/
theorem c3_counterexample :
    (Blast sampleState "T" ["x", "y"] 0).2 = [(0, "[T:a] y\r\n"), (1, "[T:a] y\r\n")] ∧
    (Message sampleState "T" ["x", "y"] 0).2.2 = [(0, "[T:a] x y\r\n")] ∧
    ("[T:a] y\r\n" : String) ≠ "[T:a] x y\r\n" := by
  decide

/-- C3 amended: `Blast ws` delivers, to every client in the flat index
exactly once, the line formatted from `ws.drop 1` (the first word — the
"/blast" command token at every call site — is skipped); that line is
exactly the one `Message` would deliver for the word list `ws.drop 1`. -/
theorem c3_amended (s : ServerState) (now : String) (ws : List String) (c : Nat)
    (hw : WellFormed s) :
    (∀ q ∈ s.clients, (Blast s now ws c).2.countP (fun p => p.1 == q.2) = 1) ∧
    (∀ p ∈ (Blast s now ws c).2,
      (∃ q ∈ s.clients, q.2 = p.1) ∧ p.2 = outLine now (nickOf s c) (ws.drop 1)) ∧
    (∀ rn, findRoom s c = some rn →
      (Message s now (ws.drop 1) c).2.2 =
        (roomMembers s rn).map (fun q => (q.2, outLine now (nickOf s c) (ws.drop 1)))) := by
  refine ⟨?_, ?_, ?_⟩
  · intro q hq
    unfold Blast
    rw [List.countP_map]
    apply countP_eq_one_unique (nodup_of_nodupKeys hw.1.2.1) hq
    · simp
    · intro p hp hpq
      simp only [Function.comp] at hpq
      have hv : p.2 = q.2 := by simpa using hpq
      have h1 : nickOf s p.2 = p.1 := hw.2.1 p hp
      have h2 : nickOf s q.2 = q.1 := hw.2.1 q hq
      exact nodup_key_inj hw.1.2.1 hp hq (by rw [← h1, ← h2, hv])
  · intro p hp
    unfold Blast at hp
    simp only [List.mem_map] at hp
    obtain ⟨q, hq, hfq⟩ := hp
    exact ⟨⟨q, hq, by rw [← hfq]⟩, by rw [← hfq]⟩
  · intro rn h
    unfold Message
    rw [h]

/-- C3 amended witness: on the sample state, the blast of ["/blast", "x"]
reaches client 1 exactly once. -/
theorem c3_witness :
    (Blast sampleState "T" ["/blast", "x"] 0).2.countP (fun p => p.1 == 1) = 1 :=
  (c3_amended sampleState "T" ["/blast", "x"] 0 (by decide)).1 ("b", 1) (by decide)

/-- C8 counterexample: a `/quit` line produces zero reply writes to the
issuing client (CloseClient writes nothing back), refuting the claim that
every recognized command, including /quit, produces exactly one reply. -/
theorem c8_counterexample :
    (handleLine sampleState "T" 0 ["/quit"]).2.1 = [] ∧
    (handleLine sampleState "T" 0 ["/quit"]).2.1.length ≠ 1 := by
  decide

/-- C8 amended: every direct reply of the session driver goes to the
issuing client, and the number of direct replies per input line is: one for
an empty line and for /help, /room and /nick (success or error); zero for
/quit, for /blast (whose only write back to the issuer is its fan-out copy
as a flat-index member) and for a plain message line (whose only write back
is the room broadcast copy). -/
theorem c8_amended (s : ServerState) (now : String) (c : Nat) (tokens : List String) :
    (∀ p ∈ (handleLine s now c tokens).2.1, p.1 = c) ∧
    (handleLine s now c tokens).2.1.length =
      (match tokens with
       | [] => 1
       | t :: _ =>
         if t = "/help" then 1
         else if t = "/quit" then 0
         else if t = "/blast" then 0
         else if t = "/room" then 1
         else if t = "/nick" then 1
         else 0) := by
  cases tokens with
  | nil => simp [handleLine]
  | cons t rest =>
    by_cases h1 : t = "/help"
    · simp [handleLine, h1]
    · by_cases h2 : t = "/quit"
      · simp [handleLine, h1, h2]
      · by_cases h3 : t = "/blast"
        · simp [handleLine, h1, h2, h3, Blast]
        · by_cases h4 : t = "/room"
          · cases rest with
            | nil => simp [handleLine, h1, h2, h3, h4]
            | cons r rs =>
              rcases hjr : JoinRoom s (toLowerStr (String.join (r :: rs))) c with ⟨s1, e⟩
              simp [handleLine, h1, h2, h3, h4, hjr]
          · by_cases h5 : t = "/nick"
            · cases rest with
              | nil => simp [handleLine, h1, h2, h3, h4, h5]
              | cons r rs =>
                rcases hcn : ChangeNick s (nickOf s c) r with ⟨s1, err⟩
                cases err <;> simp [handleLine, h1, h2, h3, h4, h5, hcn]
            · rcases hms : Message s now (t :: rest) c with ⟨s1, e, outs⟩
              simp [handleLine, h1, h2, h3, h4, h5, hms]

/-- C5: a rename whose source nick is held by a seated client and whose
target nick is free succeeds; afterwards FindRoom returns the same room,
the new nick maps to the client in that room's member map and in the flat
index, and the old nick is gone from both. -/
theorem c5_rename_atomic (s : ServerState) (oldN newN : String) (cl : Nat) (rn : String)
    (hw : WellFormed s)
    (hold : mlookup oldN s.clients = some cl)
    (hnew : clientExists s newN = false)
    (hfr : findRoom s cl = some rn) :
    (ChangeNick s oldN newN).2 = none ∧
    findRoom (ChangeNick s oldN newN).1 cl = some rn ∧
    mlookup newN (roomMembers (ChangeNick s oldN newN).1 rn) = some cl ∧
    mlookup newN (ChangeNick s oldN newN).1.clients = some cl ∧
    mlookup oldN (roomMembers (ChangeNick s oldN newN).1 rn) = none ∧
    mlookup oldN (ChangeNick s oldN newN).1.clients = none := by
  have hres := changeNick_success_fields s oldN newN cl rn hnew hold hfr
  have hbn : mlookup newN s.clients = none := by
    unfold clientExists at hnew
    exact Option.not_isSome_iff_eq_none.mp (by simp [hnew])
  have hab : oldN ≠ newN := fun h => by
    rw [h, hbn] at hold
    exact Option.noConfusion hold
  obtain ⟨hrl, hrmem, hrk⟩ := findRoom_some_elim hw hfr
  have hndm : NodupKeys (roomMembers s rn) := wf_nodup_mem hw hrmem
  have hndc : NodupKeys s.clients := wf_nodup_clients hw
  set memNew := mapInsert newN cl (mapErase oldN (roomMembers s rn)) with hmemNew
  have hstate : (ChangeNick s oldN newN).1 =
      { nicks := mapInsert cl newN s.nicks,
        clients := mapInsert newN cl (mapErase oldN s.clients),
        rooms := mapInsert rn memNew s.rooms } := by rw [hres]
  have hsnd : (ChangeNick s oldN newN).2 = none := by rw [hres]
  have hroomL : mlookup rn (ChangeNick s oldN newN).1.rooms = some memNew := by
    rw [hstate]
    exact mlookup_mapInsert_self _ _ _
  have hmem_eq : roomMembers (ChangeNick s oldN newN).1 rn = memNew := by
    unfold roomMembers
    rw [hroomL]
    rfl
  refine ⟨hsnd, ?_, ?_, ?_, ?_, ?_⟩
  · have hnick' : nickOf (ChangeNick s oldN newN).1 cl = newN := by
      rw [hstate]
      show (mlookup cl (mapInsert cl newN s.nicks)).getD "" = newN
      rw [mlookup_mapInsert_self]
      rfl
    unfold findRoom
    rw [hnick', hstate]
    show findRoomAux newN (mapInsert rn memNew s.rooms) = some rn
    refine findRoomAux_unique (mem_mapInsert_self rn memNew s.rooms) ?_ ?_
    · rw [hmemNew, mlookup_mapInsert_self]
      rfl
    · intro p hp hps
      rcases (mem_mapInsert_iff (wf_nodup_rooms hw)).mp hp with h | ⟨h, _⟩
      · exact h
      · exfalso
        obtain ⟨v, hv⟩ := Option.isSome_iff_exists.mp hps
        have := hw.2.2.1 p h (newN, v) (mlookup_mem hv)
        rw [hbn] at this
        exact Option.noConfusion this
  · rw [hmem_eq, hmemNew]
    exact mlookup_mapInsert_self _ _ _
  · rw [hstate]
    show mlookup newN (mapInsert newN cl (mapErase oldN s.clients)) = some cl
    exact mlookup_mapInsert_self _ _ _
  · rw [hmem_eq, hmemNew, mlookup_mapInsert_ne (Ne.symm hab)]
    exact mlookup_mapErase_self hndm
  · rw [hstate]
    show mlookup oldN (mapInsert newN cl (mapErase oldN s.clients)) = none
    rw [mlookup_mapInsert_ne (Ne.symm hab)]
    exact mlookup_mapErase_self hndc

/-- C5 witness: renaming "a" to "c" on the sample state succeeds and the
client stays in room "r". -/
theorem c5_witness :
    (ChangeNick sampleState "a" "c").2 = none ∧
    findRoom (ChangeNick sampleState "a" "c").1 0 = some "r" :=
  ⟨(c5_rename_atomic sampleState "a" "c" 0 "r" (by decide) (by decide) (by decide)
      (by decide)).1,
   (c5_rename_atomic sampleState "a" "c" 0 "r" (by decide) (by decide) (by decide)
      (by decide)).2.1⟩

/-- C6: a Message from a seated sender succeeds and fans the formatted
line out to exactly the current members of the sender's room, one copy per
member (the sender included); a sender in no room gets the not-found error
and nothing is delivered. -/
theorem c6_message_delivery :
    (∀ s now ws c rn, WellFormed s → findRoom s c = some rn →
      mlookup (nickOf s c) (roomMembers s rn) = some c →
      (Message s now ws c).2.1 = none ∧
      (Message s now ws c).2.2 =
        (roomMembers s rn).map (fun q => (q.2, outLine now (nickOf s c) ws)) ∧
      (∀ q ∈ roomMembers s rn,
        (Message s now ws c).2.2.countP (fun p => p.1 == q.2) = 1) ∧
      (Message s now ws c).2.2.countP (fun p => p.1 == c) = 1 ∧
      (∀ d : Nat, (∀ q ∈ roomMembers s rn, q.2 ≠ d) →
        (Message s now ws c).2.2.countP (fun p => p.1 == d) = 0)) ∧
    (∀ s now ws c, findRoom s c = none →
      Message s now ws c = (s, some (ChatError.noRoom (nickOf s c)), [])) := by
  constructor
  · intro s now ws c rn hw hfr hm
    obtain ⟨hrl, hrmem, hrk⟩ := findRoom_some_elim hw hfr
    have houts : (Message s now ws c).2.2 =
        (roomMembers s rn).map (fun q => (q.2, outLine now (nickOf s c) ws)) := by
      unfold Message
      rw [hfr]
    have hnd : (roomMembers s rn).Nodup := nodup_of_nodupKeys (wf_nodup_mem hw hrmem)
    have hcnt : ∀ q ∈ roomMembers s rn,
        (Message s now ws c).2.2.countP (fun p => p.1 == q.2) = 1 := by
      intro q hq
      rw [houts, List.countP_map]
      apply countP_eq_one_unique hnd hq
      · simp
      · intro p hp hpq
        simp only [Function.comp_apply, beq_iff_eq] at hpq
        exact wf_member_value_inj hw hrmem hp hq hpq
    refine ⟨?_, houts, hcnt, ?_, ?_⟩
    · unfold Message
      rw [hfr]
    · exact hcnt (nickOf s c, c) (mlookup_mem hm)
    · intro d hd
      rw [houts, List.countP_map]
      apply List.countP_eq_zero.mpr
      intro q hq
      simp only [Function.comp_apply, beq_iff_eq]
      exact hd q hq
  · intro s now ws c hfr
    unfold Message
    rw [hfr]

/-- C6 witness: in the sample state the sender (client 0, alone in room
"r") receives exactly one copy, and the roomless client 5 gets the
not-found error with no deliveries. -/
theorem c6_witness :
    (Message sampleState "T" ["hello"] 0).2.2.countP (fun p => p.1 == 0) = 1 ∧
    Message sampleState "T" ["x"] 5 = (sampleState, some (ChatError.noRoom ""), []) :=
  ⟨(c6_message_delivery.1 sampleState "T" ["hello"] 0 "r" (by decide) (by decide)
      (by decide)).2.2.2.1,
   c6_message_delivery.2 sampleState "T" ["x"] 5 (by decide)⟩

set_option maxHeartbeats 1600000 in
/-- C9: joining the same room twice with the same client leaves exactly one
member-map entry for that client in the room, and the client's room (per
FindRoom) is the target room both before and after the second call. -/
theorem c9_join_idempotent (s : ServerState) (rn : String) (c : Nat)
    (hw : WellFormed s)
    (hidx : mlookup (nickOf s c) s.clients = none ∨
      mlookup (nickOf s c) s.clients = some c) :
    (roomMembers (JoinRoom (JoinRoom s rn c).1 rn c).1 rn).countP
      (fun q => q.2 == c) = 1 ∧
    findRoom (JoinRoom s rn c).1 c = some rn ∧
    findRoom (JoinRoom (JoinRoom s rn c).1 rn c).1 c = some rn := by
  obtain ⟨hw1, hnick1, hidx1, hmem1, hnone1⟩ := JoinRoom_spec s rn c hw hidx
  set s1 := (JoinRoom s rn c).1 with hs1
  have hrl1 : mlookup rn s1.rooms = some (roomMembers s1 rn) := by
    cases hrm : mlookup rn s1.rooms with
    | none =>
      exfalso
      have hempty : roomMembers s1 rn = [] := by
        unfold roomMembers
        rw [hrm]
        rfl
      rw [hempty] at hmem1
      exact Option.noConfusion hmem1
    | some mem =>
      unfold roomMembers
      rw [hrm]
      rfl
  have hfr1 : findRoom s1 c = some rn := by
    unfold findRoom
    rw [hnick1]
    exact wf_findRoomAux_some hw1 (mlookup_mem hrl1) (by rw [hmem1]; rfl)
  have hidx2 : mlookup (nickOf s1 c) s1.clients = none ∨
      mlookup (nickOf s1 c) s1.clients = some c := by
    rw [hnick1]
    exact Or.inr hidx1
  obtain ⟨hw2, hnick2, hidx2', hmem2, hnone2⟩ := JoinRoom_spec s1 rn c hw1 hidx2
  rw [hnick1] at hnick2 hidx2' hmem2 hnone2
  set s2 := (JoinRoom s1 rn c).1 with hs2
  have hrl2 : mlookup rn s2.rooms = some (roomMembers s2 rn) := by
    cases hrm : mlookup rn s2.rooms with
    | none =>
      exfalso
      have hempty : roomMembers s2 rn = [] := by
        unfold roomMembers
        rw [hrm]
        rfl
      rw [hempty] at hmem2
      exact Option.noConfusion hmem2
    | some mem =>
      unfold roomMembers
      rw [hrm]
      rfl
  have hfr2 : findRoom s2 c = some rn := by
    unfold findRoom
    rw [hnick2]
    exact wf_findRoomAux_some hw2 (mlookup_mem hrl2) (by rw [hmem2]; rfl)
  have hmemin : (rn, roomMembers s2 rn) ∈ s2.rooms := mlookup_mem hrl2
  have hnodup2 : (roomMembers s2 rn).Nodup :=
    nodup_of_nodupKeys (wf_nodup_mem hw2 hmemin)
  have hqin : (nickOf s c, c) ∈ roomMembers s2 rn := mlookup_mem hmem2
  refine ⟨?_, hfr1, hfr2⟩
  apply countP_eq_one_unique hnodup2 hqin
  · simp
  · intro p hp hpc
    have hpc' : p.2 = c := by simpa using hpc
    exact wf_member_value_inj hw2 hmemin hp hqin (by simp [hpc'])

/-- C9 witness: client 5 (fresh nick "") joining "g" twice on the sample
state ends with one member entry and a stable room. -/
theorem c9_witness :
    (roomMembers (JoinRoom (JoinRoom sampleState "g" 5).1 "g" 5).1 "g").countP
      (fun q => q.2 == 5) = 1 ∧
    findRoom (JoinRoom sampleState "g" 5).1 5 = some "g" :=
  ⟨(c9_join_idempotent sampleState "g" 5 (by decide) (by decide)).1,
   (c9_join_idempotent sampleState "g" 5 (by decide) (by decide)).2.1⟩

/-- C10: when the joining client's nickname is already in the flat index,
JoinRoom returns the error "Client already exists", yet the state has been
mutated regardless: the client has moved from its previous room's member
map into the target room's member map. -/
theorem c10_join_error_mutates (s : ServerState) (rn : String) (c : Nat) (r0 : String)
    (hw : WellFormed s)
    (hidx : mlookup (nickOf s c) s.clients = some c)
    (hfr : findRoom s c = some r0)
    (hne : r0 ≠ rn) :
    (JoinRoom s rn c).2 = some ChatError.clientAlreadyExists ∧
    mlookup (nickOf s c) (roomMembers (JoinRoom s rn c).1 rn) = some c ∧
    mlookup (nickOf s c) (roomMembers (JoinRoom s rn c).1 r0) = none := by
  have herr : (JoinRoom s rn c).2 = some ChatError.clientAlreadyExists := by
    unfold JoinRoom
    rw [joinRoom_snd]
    unfold clientExists
    rw [tryDelete_clients, nickOf_tryDelete, hidx]
    rfl
  obtain ⟨hw', hnick', hidx', hmem', hnone'⟩ := JoinRoom_spec s rn c hw (Or.inr hidx)
  refine ⟨herr, hmem', ?_⟩
  obtain ⟨hrl0, hrmem0, hk0⟩ := findRoom_some_elim hw hfr
  have hs1 := tryDelete_eq_of_some hfr
  have hlook : mlookup r0 (JoinRoom s rn c).1.rooms =
      some (mapErase (nickOf s c) (roomMembers s r0)) := by
    show mlookup r0 (joinRoom (tryDeleteFromRoom s c) rn c).1.rooms = _
    rw [joinRoom_rooms, mlookup_mapInsert_ne (Ne.symm hne), hs1]
    exact mlookup_mapInsert_self _ _ _
  unfold roomMembers
  rw [hlook]
  exact mlookup_mapErase_self (wf_nodup_mem hw hrmem0)

/-- C10 witness: in the sample state, client 0 (already indexed, seated in
"r") joining "g" gets the error while having moved from "r" to "g". -/
theorem c10_witness :
    (JoinRoom sampleState "g" 0).2 = some ChatError.clientAlreadyExists ∧
    mlookup "a" (roomMembers (JoinRoom sampleState "g" 0).1 "g") = some 0 ∧
    mlookup "a" (roomMembers (JoinRoom sampleState "g" 0).1 "r") = none :=
  c10_join_error_mutates sampleState "g" 0 "r" (by decide) (by decide) (by decide)
    (by decide)

/-- C8 amended witness: a /room line on the sample state produces exactly
one reply, addressed to the issuing client. -/
theorem c8_witness :
    ((0 : Nat), "Joining room g\r\n").1 = 0 ∧
    (handleLine sampleState "T" 0 ["/room", "g"]).2.1.length = 1 :=
  ⟨(c8_amended sampleState "T" 0 ["/room", "g"]).1 (0, "Joining room g\r\n") (by decide),
   by decide⟩

end TinyChat
